import Mathlib

/-!
# Verification of the immutable_string crate

A shallow embedding of `src/lib.rs` of the `immutable_string` Rust crate.

The crate provides a process-wide interning table for immutable strings:

* `STRING_TABLE : RwLock<WeakHashSet<Weak<str>>>` — a global table holding weak
  references to every live interned buffer;
* `pub struct ImmutableString(Arc<str>)` — a reference-counted handle;
* `impl<T> From<T> for ImmutableString` — the double-checked-locking constructor
  (read-lock lookup, on miss: write lock, re-check, allocate and insert);
* `use_count` — `Arc::strong_count` of the handle's buffer;
* derived `PartialEq/Eq/PartialOrd/Ord/Hash` delegating (through `Arc<str>`) to
  the string content;
* `Display`/`Debug`/`Deref`/`AsRef<str>`/`Borrow<str>` and two `FromIterator`
  impls collecting characters into a `String` before interning.

The embedding models an `Arc<str>` allocation as a `Buffer` with an abstract
allocation identity (`id`), its string content and its strong count.  The
global table plus all reference counts form the `InternState`.  Lock poisoning
and the thread-interleaving semantics of the `RwLock` are modelled explicitly
further below.
-/

set_option autoImplicit false

namespace ImmStr

/-- One shared string buffer: models a single `Arc<str>` allocation.  `id`
models the allocation address (fresh per allocation, so two buffers alive at
the same time are the same allocation iff they have the same `id`), `content`
the string data, and `strong` the strong reference count
(`Arc::strong_count`).  A buffer with `strong = 0` is deallocated; its weak
table entry is dead. -/
structure Buffer where
  id : Nat
  content : String
  strong : Nat
deriving DecidableEq

/-- The global state: models `STRING_TABLE` (the `WeakHashSet<Weak<str>>` of
weak references to every buffer ever inserted) together with the strong counts
of the buffers.  `nextId` is the allocation counter supplying fresh buffer
identities; `bufs` records every buffer that has been allocated and inserted.
A buffer with `strong = 0` has been deallocated: its weak entry cannot be
upgraded and is treated as absent by lookups (the `weak_table` semantics). -/
structure InternState where
  nextId : Nat
  bufs : List Buffer
deriving DecidableEq

/-- A handle: models `pub struct ImmutableString(Arc<str>)`.  `bufId` is the
identity of the `Arc` allocation the handle points to; `content` is the string
slice the `Arc<str>` dereferences to. -/
structure ImmutableString where
  bufId : Nat
  content : String
deriving DecidableEq

/-- Models `str_map.get(&s)`: look up the weak entry for content `s` and upgrade it.
The upgrade succeeds exactly when the buffer is still live (`strong > 0`);
a dead entry is treated as absent.  Returns the identity of the live buffer
found. -/
def findLive (bufs : List Buffer) (s : String) : Option Nat :=
  (bufs.find? (fun b => b.content == s && 0 < b.strong)).map (fun b => b.id)

/-- Upgrading a weak reference / cloning the `Arc`: the strong count of buffer
`i` is incremented. -/
def bumpStrong (σ : InternState) (i : Nat) : InternState :=
  ⟨σ.nextId, σ.bufs.map (fun b => if b.id = i then ⟨b.id, b.content, b.strong + 1⟩ else b)⟩

/-- Dropping an `Arc`: the strong count of buffer `i` is decremented. -/
def decStrong (σ : InternState) (i : Nat) : InternState :=
  ⟨σ.nextId, σ.bufs.map (fun b => if b.id = i then ⟨b.id, b.content, b.strong - 1⟩ else b)⟩

/-- Models `let val: Arc<str> = s.into(); str_map.insert(val.clone())`: allocate a
fresh buffer for content `s` with strong count 1 (the count held by the
returned handle; the table keeps only a weak reference) and record its weak
entry in the table. -/
def allocBuffer (s : String) (σ : InternState) : ImmutableString × InternState :=
  (⟨σ.nextId, s⟩, ⟨σ.nextId + 1, ⟨σ.nextId, s, 1⟩ :: σ.bufs⟩)

/-- The write-locked critical section of `From::from`: re-check the table
under the exclusive lock; on a hit share the existing buffer, otherwise
allocate and insert. -/
def internCore (s : String) (σ : InternState) : ImmutableString × InternState :=
  match findLive σ.bufs s with
  | some i => (⟨i, s⟩, bumpStrong σ i)
  | none => allocBuffer s σ

/-- Models `impl<T> From<T> for ImmutableString` (for `T = &str` and `T = String`
alike): first look up under the shared read lock; on a hit share that buffer;
on a miss drop the read lock, take the write lock and run the re-checking
critical section `internCore`. -/
def intern (s : String) (σ : InternState) : ImmutableString × InternState :=
  match findLive σ.bufs s with
  | some i => (⟨i, s⟩, bumpStrong σ i)
  | none => internCore s σ

/-- Models `ImmutableString::use_count`: `Arc::strong_count(&self.0)`, the strong
count of the buffer the handle points to. -/
def use_count (σ : InternState) (h : ImmutableString) : Nat :=
  ((σ.bufs.find? (fun b => b.id == h.bufId)).map (fun b => b.strong)).getD 0

/-- Models the derived `Clone`: clones the inner `Arc`, yielding a handle to the same
buffer and incrementing its strong count. -/
def cloneIS (σ : InternState) (h : ImmutableString) : ImmutableString × InternState :=
  (h, bumpStrong σ h.bufId)

/-- Models `Deref for ImmutableString`: `&self.0`, the underlying string slice. -/
def derefIS (h : ImmutableString) : String := h.content

/-- Models `AsRef<str> for ImmutableString`: returns `self`, deref-coerced to the
underlying slice. -/
def asRefIS (h : ImmutableString) : String := derefIS h

/-- Models `Borrow<str> for ImmutableString`: returns `self`, deref-coerced to the
underlying slice. -/
def borrowIS (h : ImmutableString) : String := derefIS h

/-- Models the derived `PartialEq`: `ImmutableString(Arc<str>)` equality delegates to
`Arc<str>` equality, which compares the pointed-to `str` contents. -/
def beqIS (a b : ImmutableString) : Bool := a.content == b.content

/-- Models `str::cmp` at the character level: Rust compares the UTF-8 bytes
lexicographically, and byte-lexicographic order of UTF-8 coincides with
code-point-lexicographic order, so we compare the code-point sequences. -/
def strCmp : List Char → List Char → Ordering
  | [], [] => Ordering.eq
  | [], _ :: _ => Ordering.lt
  | _ :: _, [] => Ordering.gt
  | a :: as, b :: bs =>
    if a < b then Ordering.lt
    else if b < a then Ordering.gt
    else strCmp as bs

/-- Models the derived `Ord`: delegates through `Arc<str>` to `str::cmp` on the
contents. -/
def cmpIS (a b : ImmutableString) : Ordering := strCmp a.content.data b.content.data

/-- Models the derived `Hash`: delegates through `Arc<str>` to hashing the `str`
content; modelled as an arbitrary fixed hash function of the content. -/
def hashIS (a : ImmutableString) : UInt64 := hash a.content

/-- Models `impl fmt::Display`: `fmt::Display::fmt(&**self, f)`, i.e. the `str`
Display implementation, which writes the content verbatim. -/
def displayIS (h : ImmutableString) : String := h.content

/-- Models `char::escape_debug` from the Rust standard library (not part of
this repository), as used by the `Debug` implementation for `str` with double
quotes escaped and single quotes not escaped: tab, carriage return, newline,
backslash and double quote map to two-character escapes; other printable
characters are kept verbatim (printability above ASCII is approximated); the
remaining control characters map to a unicode escape. -/
def escapeDebugChar (c : Char) : String :=
  if c = '\t' then "\\t"
  else if c = '\n' then "\\n"
  else if c = '\r' then "\\r"
  else if c = '\\' then "\\\\"
  else if c = '\"' then "\\\""
  else if 0x20 ≤ c.toNat ∧ c.toNat ≠ 0x7f then String.singleton c
  else "\\u\x7b" ++ String.mk (Nat.toDigits 16 c.toNat) ++ "\x7d"

/-- Concatenation of the escaped renderings of a list of characters, in
order. -/
def escapeList : List Char → String
  | [] => ""
  | c :: cs => escapeDebugChar c ++ escapeList cs

/-- The `Debug` implementation for `str` from the Rust standard library (not
part of this repository): writes a double quote, each character escaped via
`escape_debug`, and a closing double quote. -/
def debugRenderStr (s : String) : String :=
  "\"" ++ escapeList s.data ++ "\""

/-- Models `impl fmt::Debug for ImmutableString`: `fmt::Debug::fmt(&**self, f)` —
`**self` is the underlying `str`, so this is the quoting-and-escaping `Debug`
implementation for `str`, not the verbatim Display. -/
def debugIS (h : ImmutableString) : String := debugRenderStr h.content

/-- Models `impl FromIterator<char> for ImmutableString`: extend an empty `String`
buffer with the characters (one contiguous buffer), `shrink_to_fit` (no
effect on content), then `.into()` — i.e. the `From` constructor. -/
def fromIterChars (cs : List Char) (σ : InternState) : ImmutableString × InternState :=
  intern (String.mk cs) σ

/-- Models `impl FromIterator<&char> for ImmutableString`: identical to the `char`
version after dereferencing each item. -/
def fromIterCharRefs (cs : List Char) (σ : InternState) : ImmutableString × InternState :=
  intern (String.mk cs) σ

/-- Models `From::from` with the two `RwLock` acquisitions made explicit:
`STRING_TABLE.read().expect("Corrupted STRING_TABLE")` and
`STRING_TABLE.write().expect("Corrupted STRING_TABLE")` panic (thread-fatal,
no handle is produced, no retry) when the lock is poisoned.  `poisoned` is the
poison flag of the `RwLock`; `Except.error` models the panic with its
message. -/
def internLocked (poisoned : Bool) (s : String) (σ : InternState) :
    Except String (ImmutableString × InternState) :=
  if poisoned then Except.error "Corrupted STRING_TABLE"
  else
    match findLive σ.bufs s with
    | some i => Except.ok (⟨i, s⟩, bumpStrong σ i)
    | none =>
      if poisoned then Except.error "Corrupted STRING_TABLE"
      else Except.ok (internCore s σ)

/-- A client-side world: the global state together with the multiset of
handles currently held by client code (every `ImmutableString` value that has
been constructed or cloned and not yet dropped). -/
structure World where
  st : InternState
  live : List ImmutableString
deriving DecidableEq

/-- The initial world: the lazily-initialized empty table, no handles. -/
def World.empty : World := ⟨⟨0, []⟩, []⟩

/-- Constructing a handle in a world: run `From::from` and hold the result. -/
def internW (s : String) (w : World) : ImmutableString × World :=
  let r := intern s w.st
  (r.1, ⟨r.2, r.1 :: w.live⟩)

/-- Cloning a held handle in a world. -/
def cloneW (w : World) (h : ImmutableString) : ImmutableString × World :=
  (h, ⟨bumpStrong w.st h.bufId, h :: w.live⟩)

/-- Remove one occurrence of a handle value from the held multiset. -/
def removeOne : List ImmutableString → ImmutableString → List ImmutableString
  | [], _ => []
  | x :: xs, h => if x = h then xs else x :: removeOne xs h

/-- Dropping a held handle in a world: the `Arc` strong count of its buffer is
decremented and the handle leaves the held multiset. -/
def dropW (w : World) (h : ImmutableString) : World :=
  ⟨decStrong w.st h.bufId, removeOne w.live h⟩

/-- Number of held handles pointing at buffer `i`. -/
def countHandles (live : List ImmutableString) (i : Nat) : Nat :=
  (live.filter (fun h => h.bufId == i)).length

/-- Number of held handles whose content is `s`. -/
def countContent (live : List ImmutableString) (s : String) : Nat :=
  (live.filter (fun h => h.content == s)).length

/-- Well-formedness of the global state: buffer identities are below the
allocation counter, identities are unique, and at most one live buffer exists
per content value (the dedup invariant of the table). -/
def StateWF (σ : InternState) : Prop :=
  (∀ b ∈ σ.bufs, b.id < σ.nextId) ∧
  (∀ a ∈ σ.bufs, ∀ b ∈ σ.bufs, a.id = b.id → a = b) ∧
  (∀ a ∈ σ.bufs, ∀ b ∈ σ.bufs, 0 < a.strong → 0 < b.strong →
    a.content = b.content → a.id = b.id)

/-- Well-formedness of a world: the state is well formed, every held handle
points at an allocated buffer with matching content, and every buffer's strong
count equals the number of held handles pointing at it (the table holds only
weak references, so client handles are the only strong owners). -/
def WorldInv (w : World) : Prop :=
  StateWF w.st ∧
  (∀ h ∈ w.live, ∃ b ∈ w.st.bufs, b.id = h.bufId ∧ b.content = h.content) ∧
  (∀ b ∈ w.st.bufs, b.strong = countHandles w.live b.id)

instance decidableStateWF (σ : InternState) : Decidable (StateWF σ) := by
  unfold StateWF; infer_instance

instance decidableWorldInv (w : World) : Decidable (WorldInv w) := by
  unfold WorldInv; infer_instance

/-- Program counter of one thread running `From::from` on some content:
`start` = about to take the read lock; `waiting` = read lookup missed,
waiting on the write lock; `done h` = returned with handle `h`. -/
inductive ThreadPC where
  | start : ThreadPC
  | waiting : ThreadPC
  | done : ImmutableString → ThreadPC
deriving DecidableEq

/-- A configuration of the concurrent system: the global state plus the
program counter of each thread. -/
structure RaceConfig where
  st : InternState
  threads : List ThreadPC
deriving DecidableEq

/-- One atomic step of a thread interning `s`.  The read-locked lookup is one
atomic action (writers are excluded while it runs) and the whole write-locked
critical section `internCore` is one atomic action (it holds the exclusive
lock).  A finished thread does nothing. -/
def stepThread (s : String) (σ : InternState) : ThreadPC → ThreadPC × InternState
  | ThreadPC.start =>
    match findLive σ.bufs s with
    | some i => (ThreadPC.done ⟨i, s⟩, bumpStrong σ i)
    | none => (ThreadPC.waiting, σ)
  | ThreadPC.waiting =>
    let r := internCore s σ
    (ThreadPC.done r.1, r.2)
  | ThreadPC.done h => (ThreadPC.done h, σ)

/-- Schedule thread `t` for one atomic step (no-op on an out-of-range id). -/
def stepConfig (s : String) (c : RaceConfig) (t : Nat) : RaceConfig :=
  match c.threads[t]? with
  | none => c
  | some pc =>
    let r := stepThread s c.st pc
    ⟨r.2, c.threads.set t r.1⟩

/-- Run a schedule: a list of thread ids, each getting one atomic step. -/
def runRace (s : String) : List Nat → RaceConfig → RaceConfig
  | [], c => c
  | t :: ts, c => runRace s ts (stepConfig s c t)

/-- 1 for a finished thread, 0 otherwise. -/
def doneBit : ThreadPC → Nat
  | ThreadPC.done _ => 1
  | _ => 0

/-- Number of finished threads in a configuration. -/
def countDone (l : List ThreadPC) : Nat := (l.map doneBit).sum

/-- Invariant of the concurrent race on one previously-unseen content `s`
starting from state `σ0`: every finished thread holds the handle to the one
freshly allocated buffer (identity `σ0.nextId`), and either nothing has been
allocated yet (state unchanged, no thread finished) or exactly the one fresh
buffer has been allocated and its strong count equals the number of finished
threads. -/
def RaceInv (σ0 : InternState) (s : String) (c : RaceConfig) : Prop :=
  (∀ pc ∈ c.threads, ∀ x, pc = ThreadPC.done x → x = ⟨σ0.nextId, s⟩) ∧
  ((c.st = σ0 ∧ countDone c.threads = 0) ∨
   (c.st = ⟨σ0.nextId + 1, ⟨σ0.nextId, s, countDone c.threads⟩ :: σ0.bufs⟩ ∧
     0 < countDone c.threads))

/-! ## Basic lemmas about the table primitives -/

theorem findLive_eq_none_iff (bufs : List Buffer) (s : String) :
    findLive bufs s = none ↔ ∀ b ∈ bufs, b.content = s → b.strong = 0 := by
  unfold findLive
  cases hf : bufs.find? (fun b => b.content == s && decide (0 < b.strong)) with
  | none =>
    rw [List.find?_eq_none] at hf
    simp only [Option.map_none', true_iff]
    intro b hb hc
    have := hf b hb
    by_contra hs
    exact this (by simp [hc, Nat.pos_of_ne_zero hs])
  | some b =>
    have hmem := List.mem_of_find?_eq_some hf
    have hp := List.find?_some hf
    simp only [Bool.and_eq_true, beq_iff_eq, decide_eq_true_eq] at hp
    obtain ⟨hpc, hps⟩ := hp
    constructor
    · intro hcontr; exact absurd hcontr (by simp)
    · intro hall
      exact absurd (hall b hmem hpc) (by omega)

theorem findLive_eq_some_elim {bufs : List Buffer} {s : String} {i : Nat}
    (h : findLive bufs s = some i) :
    ∃ b ∈ bufs, b.id = i ∧ b.content = s ∧ 0 < b.strong := by
  unfold findLive at h
  cases hf : bufs.find? (fun b => b.content == s && decide (0 < b.strong)) with
  | none => rw [hf] at h; simp at h
  | some b =>
    rw [hf] at h
    simp only [Option.map_some', Option.some_inj] at h
    have hmem := List.mem_of_find?_eq_some hf
    have hp := List.find?_some hf
    simp only [Bool.and_eq_true, beq_iff_eq, decide_eq_true_eq] at hp
    exact ⟨b, hmem, h, hp.1, hp.2⟩

theorem findLive_eq_some_of {bufs : List Buffer} {s : String} {i : Nat}
    (hex : ∃ b ∈ bufs, b.content = s ∧ 0 < b.strong ∧ b.id = i)
    (hall : ∀ b ∈ bufs, b.content = s → 0 < b.strong → b.id = i) :
    findLive bufs s = some i := by
  unfold findLive
  cases hf : bufs.find? (fun b => b.content == s && decide (0 < b.strong)) with
  | none =>
    rw [List.find?_eq_none] at hf
    obtain ⟨b, hb, hc, hs, _⟩ := hex
    exact absurd (by simp [hc, hs] : (b.content == s && decide (0 < b.strong)) = true) (hf b hb)
  | some b =>
    have hmem := List.mem_of_find?_eq_some hf
    have hp := List.find?_some hf
    simp only [Bool.and_eq_true, beq_iff_eq, decide_eq_true_eq] at hp
    simp only [Option.map_some', Option.some_inj]
    exact hall b hmem hp.1 hp.2

theorem findLive_cons_live (i : Nat) (s : String) (k : Nat) (rest : List Buffer)
    (hk : 0 < k) :
    findLive (⟨i, s, k⟩ :: rest) s = some i := by
  unfold findLive
  rw [List.find?_cons_of_pos]
  · rfl
  · simp [hk]

theorem findLive_cons_ne (b : Buffer) (rest : List Buffer) (s : String)
    (hne : b.content ≠ s) :
    findLive (b :: rest) s = findLive rest s := by
  unfold findLive
  rw [List.find?_cons_of_neg]
  simp [hne]

theorem intern_of_none {s : String} {σ : InternState}
    (h : findLive σ.bufs s = none) :
    intern s σ = (⟨σ.nextId, s⟩, ⟨σ.nextId + 1, ⟨σ.nextId, s, 1⟩ :: σ.bufs⟩) := by
  simp [intern, internCore, h, allocBuffer]

theorem intern_of_some {s : String} {σ : InternState} {i : Nat}
    (h : findLive σ.bufs s = some i) :
    intern s σ = (⟨i, s⟩, bumpStrong σ i) := by
  simp [intern, h]

theorem use_count_cons_eq (n : Nat) (b : Buffer) (rest : List Buffer)
    (h : ImmutableString) (heq : b.id = h.bufId) :
    use_count ⟨n, b :: rest⟩ h = b.strong := by
  unfold use_count
  rw [List.find?_cons_of_pos]
  · rfl
  · simp [heq]

theorem use_count_cons_ne (n : Nat) (b : Buffer) (rest : List Buffer)
    (h : ImmutableString) (hne : b.id ≠ h.bufId) :
    use_count ⟨n, b :: rest⟩ h = use_count ⟨n, rest⟩ h := by
  unfold use_count
  rw [List.find?_cons_of_neg]
  simp [hne]

theorem map_bump_eq_self (l : List Buffer) (i : Nat) (h : ∀ b ∈ l, b.id ≠ i) :
    l.map (fun b => if b.id = i then ⟨b.id, b.content, b.strong + 1⟩ else b) = l := by
  have h1 : l.map (fun b => if b.id = i then (⟨b.id, b.content, b.strong + 1⟩ : Buffer) else b)
      = l.map id := List.map_congr_left (fun b hb => by simp [h b hb])
  rw [h1, List.map_id]

theorem bumpStrong_cons (n i : Nat) (c : String) (k : Nat) (rest : List Buffer)
    (hrest : ∀ x ∈ rest, x.id ≠ i) :
    bumpStrong ⟨n, ⟨i, c, k⟩ :: rest⟩ i = ⟨n, ⟨i, c, k + 1⟩ :: rest⟩ := by
  simp [bumpStrong, map_bump_eq_self rest i hrest]

theorem bump_fn_id (i : Nat) (b : Buffer) :
    ((if b.id = i then (⟨b.id, b.content, b.strong + 1⟩ : Buffer) else b)).id = b.id := by
  by_cases h : b.id = i <;> simp [h]

theorem bump_fn_content (i : Nat) (b : Buffer) :
    ((if b.id = i then (⟨b.id, b.content, b.strong + 1⟩ : Buffer) else b)).content
      = b.content := by
  by_cases h : b.id = i <;> simp [h]

theorem bump_fn_strong (i : Nat) (b : Buffer) :
    ((if b.id = i then (⟨b.id, b.content, b.strong + 1⟩ : Buffer) else b)).strong
      = (if b.id = i then b.strong + 1 else b.strong) := by
  by_cases h : b.id = i <;> simp [h]

theorem mem_bumpStrong {σ : InternState} {i : Nat} {b' : Buffer}
    (h : b' ∈ (bumpStrong σ i).bufs) :
    ∃ b ∈ σ.bufs,
      b' = if b.id = i then (⟨b.id, b.content, b.strong + 1⟩ : Buffer) else b := by
  simp only [bumpStrong] at h
  obtain ⟨b, hb, hb'⟩ := List.mem_map.mp h
  exact ⟨b, hb, hb'.symm⟩

/-! ## Preservation of state well-formedness by the constructor (claim C2) -/

theorem StateWF_intern (s : String) (σ : InternState) (hσ : StateWF σ) :
    (intern s σ).1.content = s ∧
    StateWF (intern s σ).2 ∧
    findLive (intern s σ).2.bufs s = some (intern s σ).1.bufId := by
  obtain ⟨hbound, huniq, hdedup⟩ := hσ
  cases hf : findLive σ.bufs s with
  | none =>
    rw [intern_of_none hf]
    refine ⟨rfl, ⟨?_, ?_, ?_⟩, ?_⟩
    · intro b hb
      rcases List.mem_cons.mp hb with hhead | htail
      · rw [hhead]; simp
      · have := hbound b htail; simp; omega
    · intro a ha b hb hid
      rcases List.mem_cons.mp ha with ha' | ha' <;> rcases List.mem_cons.mp hb with hb' | hb'
      · rw [ha', hb']
      · exfalso
        have hb2 := hbound b hb'
        rw [ha'] at hid
        simp only at hid
        omega
      · exfalso
        have ha2 := hbound a ha'
        rw [hb'] at hid
        simp only at hid
        omega
      · exact huniq a ha' b hb' hid
    · intro a ha b hb hsa hsb hc
      rw [findLive_eq_none_iff] at hf
      rcases List.mem_cons.mp ha with ha' | ha' <;> rcases List.mem_cons.mp hb with hb' | hb'
      · rw [ha', hb']
      · exfalso
        have hb0 := hf b hb' (by rw [← hc, ha'])
        omega
      · exfalso
        have ha0 := hf a ha' (by rw [hc, hb'])
        omega
      · exact hdedup a ha' b hb' hsa hsb hc
    · exact findLive_cons_live σ.nextId s 1 σ.bufs (by omega)
  | some i =>
    rw [intern_of_some hf]
    obtain ⟨bi, hbi, hbiid, hbic, hbis⟩ := findLive_eq_some_elim hf
    refine ⟨rfl, ⟨?_, ?_, ?_⟩, ?_⟩
    · intro b' hb'
      obtain ⟨b, hb, rfl⟩ := mem_bumpStrong hb'
      rw [bump_fn_id]
      exact hbound b hb
    · intro a' ha' b' hb' hid
      obtain ⟨a, ha, rfl⟩ := mem_bumpStrong ha'
      obtain ⟨b, hb, rfl⟩ := mem_bumpStrong hb'
      rw [bump_fn_id, bump_fn_id] at hid
      rw [huniq a ha b hb hid]
    · intro a' ha' b' hb' hsa hsb hc
      obtain ⟨a, ha, rfl⟩ := mem_bumpStrong ha'
      obtain ⟨b, hb, rfl⟩ := mem_bumpStrong hb'
      rw [bump_fn_content, bump_fn_content] at hc
      rw [bump_fn_strong] at hsa hsb
      rw [bump_fn_id, bump_fn_id]
      have haLive : 0 < a.strong := by
        by_cases hx : a.id = i
        · rw [huniq a ha bi hbi (by rw [hx, hbiid])]; exact hbis
        · rw [if_neg hx] at hsa; exact hsa
      have hbLive : 0 < b.strong := by
        by_cases hx : b.id = i
        · rw [huniq b hb bi hbi (by rw [hx, hbiid])]; exact hbis
        · rw [if_neg hx] at hsb; exact hsb
      exact hdedup a ha b hb haLive hbLive hc
    · apply findLive_eq_some_of
      · refine ⟨if bi.id = i then (⟨bi.id, bi.content, bi.strong + 1⟩ : Buffer) else bi,
          ?_, ?_, ?_, ?_⟩
        · simp only [bumpStrong]
          exact List.mem_map_of_mem _ hbi
        · rw [bump_fn_content]; exact hbic
        · rw [bump_fn_strong, if_pos hbiid]; omega
        · rw [bump_fn_id]; exact hbiid
      · intro b' hb' hc' hs'
        obtain ⟨b, hb, rfl⟩ := mem_bumpStrong hb'
        rw [bump_fn_content] at hc'
        rw [bump_fn_strong] at hs'
        rw [bump_fn_id]
        have hbLive : 0 < b.strong := by
          by_cases hx : b.id = i
          · rw [huniq b hb bi hbi (by rw [hx, hbiid])]; exact hbis
          · rw [if_neg hx] at hs'; exact hs'
        have := hdedup b hb bi hbi hbLive hbis (by rw [hc', hbic])
        rw [this, hbiid]

/-- Claim C2: for every string `s`, `ImmutableString::from(s)` (the single
`From` impl covers borrowed slices and owned strings alike) returns a handle
whose content equals `s` and which, at the moment of return, shares the
canonical live buffer for that content (the table lookup finds exactly its
buffer), and afterwards no two distinct live buffers with the same content
exist. -/
theorem intern_returns_canonical (s : String) (σ : InternState) (hσ : StateWF σ) :
    (intern s σ).1.content = s ∧
    findLive (intern s σ).2.bufs s = some (intern s σ).1.bufId ∧
    StateWF (intern s σ).2 ∧
    (∀ a ∈ (intern s σ).2.bufs, ∀ b ∈ (intern s σ).2.bufs,
      0 < a.strong → 0 < b.strong → a.content = b.content → a.id = b.id) := by
  obtain ⟨h1, h2, h3⟩ := StateWF_intern s σ hσ
  exact ⟨h1, h3, h2, h2.2.2⟩

/-! ## Two interns of one content, then one of another (claims C4 and C6) -/

theorem intern_twice_then_other (σ : InternState) (x y : String)
    (hWF : ∀ b ∈ σ.bufs, b.id < σ.nextId)
    (hx : findLive σ.bufs x = none) (hy : findLive σ.bufs y = none) (hyx : y ≠ x) :
    intern x σ = (⟨σ.nextId, x⟩, ⟨σ.nextId + 1, ⟨σ.nextId, x, 1⟩ :: σ.bufs⟩) ∧
    intern x ⟨σ.nextId + 1, ⟨σ.nextId, x, 1⟩ :: σ.bufs⟩
      = (⟨σ.nextId, x⟩, ⟨σ.nextId + 1, ⟨σ.nextId, x, 2⟩ :: σ.bufs⟩) ∧
    intern y ⟨σ.nextId + 1, ⟨σ.nextId, x, 2⟩ :: σ.bufs⟩
      = (⟨σ.nextId + 1, y⟩,
         ⟨σ.nextId + 2, ⟨σ.nextId + 1, y, 1⟩ :: ⟨σ.nextId, x, 2⟩ :: σ.bufs⟩) := by
  refine ⟨intern_of_none hx, ?_, ?_⟩
  · have hf1 : findLive ((⟨σ.nextId + 1, ⟨σ.nextId, x, 1⟩ :: σ.bufs⟩ : InternState)).bufs x
        = some σ.nextId := findLive_cons_live σ.nextId x 1 σ.bufs (by omega)
    rw [intern_of_some hf1]
    rw [show bumpStrong ⟨σ.nextId + 1, ⟨σ.nextId, x, 1⟩ :: σ.bufs⟩ σ.nextId
        = ⟨σ.nextId + 1, ⟨σ.nextId, x, 2⟩ :: σ.bufs⟩ from
      bumpStrong_cons (σ.nextId + 1) σ.nextId x 1 σ.bufs
        (fun b hb => by have := hWF b hb; omega)]
  · have hf2 : findLive ((⟨σ.nextId + 1, ⟨σ.nextId, x, 2⟩ :: σ.bufs⟩ : InternState)).bufs y
        = none := by
      rw [findLive_cons_ne ⟨σ.nextId, x, 2⟩ σ.bufs y (Ne.symm hyx)]
      exact hy
    rw [intern_of_none hf2]

/-- Claim C4: starting from any table with no live entry for "a" or "b",
interning "a" twice yields two handles each reporting a use count of 2, and
interning "b" once yields a handle reporting a use count of 1. -/
theorem structural_sharing_counts (σ : InternState)
    (hWF : ∀ b ∈ σ.bufs, b.id < σ.nextId)
    (ha : findLive σ.bufs "a" = none) (hb : findLive σ.bufs "b" = none) :
    use_count (intern "b" (intern "a" (intern "a" σ).2).2).2 (intern "a" σ).1 = 2 ∧
    use_count (intern "b" (intern "a" (intern "a" σ).2).2).2
      (intern "a" (intern "a" σ).2).1 = 2 ∧
    use_count (intern "b" (intern "a" (intern "a" σ).2).2).2
      (intern "b" (intern "a" (intern "a" σ).2).2).1 = 1 := by
  obtain ⟨e1, e2, e3⟩ := intern_twice_then_other σ "a" "b" hWF ha hb (by decide)
  have p1h : (intern "a" σ).1 = ⟨σ.nextId, "a"⟩ := by rw [e1]
  have p1s : (intern "a" σ).2 = ⟨σ.nextId + 1, ⟨σ.nextId, "a", 1⟩ :: σ.bufs⟩ := by rw [e1]
  have p2h : (intern "a" (intern "a" σ).2).1 = ⟨σ.nextId, "a"⟩ := by rw [p1s, e2]
  have p2s : (intern "a" (intern "a" σ).2).2
      = ⟨σ.nextId + 1, ⟨σ.nextId, "a", 2⟩ :: σ.bufs⟩ := by rw [p1s, e2]
  have p3h : (intern "b" (intern "a" (intern "a" σ).2).2).1 = ⟨σ.nextId + 1, "b"⟩ := by
    rw [p2s, e3]
  have p3s : (intern "b" (intern "a" (intern "a" σ).2).2).2
      = ⟨σ.nextId + 2, ⟨σ.nextId + 1, "b", 1⟩ :: ⟨σ.nextId, "a", 2⟩ :: σ.bufs⟩ := by
    rw [p2s, e3]
  refine ⟨?_, ?_, ?_⟩
  · rw [p3s, p1h,
      use_count_cons_ne (σ.nextId + 2) ⟨σ.nextId + 1, "b", 1⟩
        (⟨σ.nextId, "a", 2⟩ :: σ.bufs) ⟨σ.nextId, "a"⟩
        (by show σ.nextId + 1 ≠ σ.nextId; omega),
      use_count_cons_eq (σ.nextId + 2) ⟨σ.nextId, "a", 2⟩ σ.bufs ⟨σ.nextId, "a"⟩ rfl]
  · rw [p3s, p2h,
      use_count_cons_ne (σ.nextId + 2) ⟨σ.nextId + 1, "b", 1⟩
        (⟨σ.nextId, "a", 2⟩ :: σ.bufs) ⟨σ.nextId, "a"⟩
        (by show σ.nextId + 1 ≠ σ.nextId; omega),
      use_count_cons_eq (σ.nextId + 2) ⟨σ.nextId, "a", 2⟩ σ.bufs ⟨σ.nextId, "a"⟩ rfl]
  · rw [p3s, p3h,
      use_count_cons_eq (σ.nextId + 2) ⟨σ.nextId + 1, "b", 1⟩
        (⟨σ.nextId, "a", 2⟩ :: σ.bufs) ⟨σ.nextId + 1, "b"⟩ rfl]

/-- Witness for C4 at the empty table. -/
theorem structural_sharing_counts_witness :
    (∀ b ∈ (⟨0, []⟩ : InternState).bufs, b.id < (⟨0, []⟩ : InternState).nextId) ∧
    (use_count (intern "b" (intern "a" (intern "a" (⟨0, []⟩ : InternState)).2).2).2
       (intern "a" (⟨0, []⟩ : InternState)).1 = 2 ∧
     use_count (intern "b" (intern "a" (intern "a" (⟨0, []⟩ : InternState)).2).2).2
       (intern "a" (intern "a" (⟨0, []⟩ : InternState)).2).1 = 2 ∧
     use_count (intern "b" (intern "a" (intern "a" (⟨0, []⟩ : InternState)).2).2).2
       (intern "b" (intern "a" (intern "a" (⟨0, []⟩ : InternState)).2).2).1 = 1) :=
  ⟨by decide, structural_sharing_counts ⟨0, []⟩ (by decide) (by decide) (by decide)⟩

/-- Claim C6: collecting from a character sequence materializes the
characters into one string and interns it; two collects of sequences with
equal content give equal handles sharing one buffer with reference count 2,
and a collect of a different sequence gives a handle unequal to both with
reference count 1. -/
theorem iterator_collect_sharing (σ : InternState) (cs ds : List Char)
    (hWF : ∀ b ∈ σ.bufs, b.id < σ.nextId)
    (hcs : findLive σ.bufs (String.mk cs) = none)
    (hds : findLive σ.bufs (String.mk ds) = none)
    (hne : String.mk ds ≠ String.mk cs) :
    fromIterChars cs σ
      = (⟨σ.nextId, String.mk cs⟩,
         ⟨σ.nextId + 1, ⟨σ.nextId, String.mk cs, 1⟩ :: σ.bufs⟩) ∧
    fromIterChars cs ⟨σ.nextId + 1, ⟨σ.nextId, String.mk cs, 1⟩ :: σ.bufs⟩
      = (⟨σ.nextId, String.mk cs⟩,
         ⟨σ.nextId + 1, ⟨σ.nextId, String.mk cs, 2⟩ :: σ.bufs⟩) ∧
    fromIterChars ds ⟨σ.nextId + 1, ⟨σ.nextId, String.mk cs, 2⟩ :: σ.bufs⟩
      = (⟨σ.nextId + 1, String.mk ds⟩,
         ⟨σ.nextId + 2,
          ⟨σ.nextId + 1, String.mk ds, 1⟩ :: ⟨σ.nextId, String.mk cs, 2⟩ :: σ.bufs⟩) ∧
    beqIS ⟨σ.nextId, String.mk cs⟩ ⟨σ.nextId, String.mk cs⟩ = true ∧
    beqIS ⟨σ.nextId, String.mk cs⟩ ⟨σ.nextId + 1, String.mk ds⟩ = false ∧
    use_count
      ⟨σ.nextId + 2,
       ⟨σ.nextId + 1, String.mk ds, 1⟩ :: ⟨σ.nextId, String.mk cs, 2⟩ :: σ.bufs⟩
      ⟨σ.nextId, String.mk cs⟩ = 2 ∧
    use_count
      ⟨σ.nextId + 2,
       ⟨σ.nextId + 1, String.mk ds, 1⟩ :: ⟨σ.nextId, String.mk cs, 2⟩ :: σ.bufs⟩
      ⟨σ.nextId + 1, String.mk ds⟩ = 1 := by
  obtain ⟨e1, e2, e3⟩ :=
    intern_twice_then_other σ (String.mk cs) (String.mk ds) hWF hcs hds hne
  refine ⟨e1, e2, e3, by simp [beqIS], ?_, ?_, ?_⟩
  · simp only [beqIS]
    exact beq_eq_false_iff_ne.mpr (Ne.symm hne)
  · rw [use_count_cons_ne (σ.nextId + 2) ⟨σ.nextId + 1, String.mk ds, 1⟩
        (⟨σ.nextId, String.mk cs, 2⟩ :: σ.bufs) ⟨σ.nextId, String.mk cs⟩
        (by show σ.nextId + 1 ≠ σ.nextId; omega),
      use_count_cons_eq (σ.nextId + 2) ⟨σ.nextId, String.mk cs, 2⟩ σ.bufs
        ⟨σ.nextId, String.mk cs⟩ rfl]
  · rw [use_count_cons_eq (σ.nextId + 2) ⟨σ.nextId + 1, String.mk ds, 1⟩
        (⟨σ.nextId, String.mk cs, 2⟩ :: σ.bufs) ⟨σ.nextId + 1, String.mk ds⟩ rfl]

/-- Witness for C6: the crate's test scenario — two collects of five
repeated characters and one collect of four, from the empty table. -/
theorem iterator_collect_sharing_witness :
    (String.mk (List.replicate 4 'a') ≠ String.mk (List.replicate 5 'a')) ∧
    (fromIterChars (List.replicate 5 'a') (⟨0, []⟩ : InternState)
      = (⟨0, String.mk (List.replicate 5 'a')⟩,
         ⟨1, ⟨0, String.mk (List.replicate 5 'a'), 1⟩ :: []⟩) ∧
     fromIterChars (List.replicate 5 'a') ⟨1, ⟨0, String.mk (List.replicate 5 'a'), 1⟩ :: []⟩
      = (⟨0, String.mk (List.replicate 5 'a')⟩,
         ⟨1, ⟨0, String.mk (List.replicate 5 'a'), 2⟩ :: []⟩) ∧
     fromIterChars (List.replicate 4 'a') ⟨1, ⟨0, String.mk (List.replicate 5 'a'), 2⟩ :: []⟩
      = (⟨1, String.mk (List.replicate 4 'a')⟩,
         ⟨2, ⟨1, String.mk (List.replicate 4 'a'), 1⟩
            :: ⟨0, String.mk (List.replicate 5 'a'), 2⟩ :: []⟩) ∧
     beqIS ⟨0, String.mk (List.replicate 5 'a')⟩ ⟨0, String.mk (List.replicate 5 'a')⟩
       = true ∧
     beqIS ⟨0, String.mk (List.replicate 5 'a')⟩ ⟨1, String.mk (List.replicate 4 'a')⟩
       = false ∧
     use_count
       ⟨2, ⟨1, String.mk (List.replicate 4 'a'), 1⟩
          :: ⟨0, String.mk (List.replicate 5 'a'), 2⟩ :: []⟩
       ⟨0, String.mk (List.replicate 5 'a')⟩ = 2 ∧
     use_count
       ⟨2, ⟨1, String.mk (List.replicate 4 'a'), 1⟩
          :: ⟨0, String.mk (List.replicate 5 'a'), 2⟩ :: []⟩
       ⟨1, String.mk (List.replicate 4 'a')⟩ = 1) :=
  ⟨by decide,
   iterator_collect_sharing ⟨0, []⟩ (List.replicate 5 'a') (List.replicate 4 'a')
     (by decide) (by decide) (by decide) (by decide)⟩

/-- Witness for C2 at the empty table and content "a". -/
theorem intern_returns_canonical_witness :
    StateWF ⟨0, []⟩ ∧
    ((intern "a" ⟨0, []⟩).1.content = "a" ∧
     findLive (intern "a" ⟨0, []⟩).2.bufs "a" = some (intern "a" ⟨0, []⟩).1.bufId ∧
     StateWF (intern "a" ⟨0, []⟩).2 ∧
     (∀ a ∈ (intern "a" ⟨0, []⟩).2.bufs, ∀ b ∈ (intern "a" ⟨0, []⟩).2.bufs,
       0 < a.strong → 0 < b.strong → a.content = b.content → a.id = b.id)) :=
  ⟨by decide, intern_returns_canonical "a" ⟨0, []⟩ (by decide)⟩

/-! ## Content-only equality, ordering and hashing (claim C5) -/

theorem strCmp_eq_eq_iff : ∀ (as bs : List Char), strCmp as bs = Ordering.eq ↔ as = bs := by
  intro as
  induction as with
  | nil => intro bs; cases bs <;> simp [strCmp]
  | cons a as ih =>
    intro bs
    cases bs with
    | nil => simp [strCmp]
    | cons b bs =>
      by_cases hab : a < b
      · simp only [strCmp, if_pos hab]
        constructor
        · intro hcontr; exact absurd hcontr (by decide)
        · intro hcontr
          injection hcontr with h1 h2
          exact absurd h1 (ne_of_lt hab)
      · by_cases hba : b < a
        · simp only [strCmp, if_neg hab, if_pos hba]
          constructor
          · intro hcontr; exact absurd hcontr (by decide)
          · intro hcontr
            injection hcontr with h1 h2
            exact absurd h1.symm (ne_of_lt hba)
        · have heq : a = b := le_antisymm (le_of_not_lt hba) (le_of_not_lt hab)
          subst heq
          simp only [strCmp, if_neg hab, if_neg hba]
          rw [ih bs]
          constructor
          · intro hcontr; rw [hcontr]
          · intro hcontr; injection hcontr

theorem strCmp_eq_lt_iff :
    ∀ (as bs : List Char), strCmp as bs = Ordering.lt ↔ List.Lex (· < ·) as bs := by
  intro as
  induction as with
  | nil =>
    intro bs
    cases bs with
    | nil =>
      simp only [strCmp]
      constructor
      · intro hcontr; exact absurd hcontr (by decide)
      · intro hcontr; exact (nomatch hcontr)
    | cons b bs =>
      simp only [strCmp]
      exact ⟨fun _ => List.Lex.nil, fun _ => trivial⟩
  | cons a as ih =>
    intro bs
    cases bs with
    | nil =>
      simp only [strCmp]
      constructor
      · intro hcontr; exact absurd hcontr (by decide)
      · intro hcontr; exact (nomatch hcontr)
    | cons b bs =>
      by_cases hab : a < b
      · simp only [strCmp, if_pos hab]
        exact ⟨fun _ => List.Lex.rel hab, fun _ => trivial⟩
      · by_cases hba : b < a
        · simp only [strCmp, if_neg hab, if_pos hba]
          constructor
          · intro hcontr; exact absurd hcontr (by decide)
          · intro hcontr
            cases hcontr with
            | rel h' => exact absurd h' hab
            | cons h' => exact absurd hba (lt_irrefl a)
        · have heq : a = b := le_antisymm (le_of_not_lt hba) (le_of_not_lt hab)
          subst heq
          simp only [strCmp, if_neg hab]
          rw [ih bs]
          constructor
          · exact List.Lex.cons
          · intro hcontr
            cases hcontr with
            | rel h' => exact absurd h' (lt_irrefl a)
            | cons h' => exact h'

/-- Claim C5: for every pair of handles, equality, ordering and hashing
delegate solely to the string content and never to the storage address or the
constructor path: two handles are equal iff their contents are equal, the
order relation is the lexicographic order over the content, equal handles
have equal hashes, and all three functions are invariant under replacing the
buffer identities. -/
theorem content_only_equality_ordering_hash (h1 h2 : ImmutableString) :
    (beqIS h1 h2 = true ↔ h1.content = h2.content) ∧
    (cmpIS h1 h2 = Ordering.eq ↔ h1.content = h2.content) ∧
    (cmpIS h1 h2 = Ordering.lt ↔ List.Lex (· < ·) h1.content.data h2.content.data) ∧
    (beqIS h1 h2 = true → hashIS h1 = hashIS h2) ∧
    (∀ i j : Nat, beqIS ⟨i, h1.content⟩ ⟨j, h2.content⟩ = beqIS h1 h2) ∧
    (∀ i j : Nat, cmpIS ⟨i, h1.content⟩ ⟨j, h2.content⟩ = cmpIS h1 h2) ∧
    (∀ i : Nat, hashIS ⟨i, h1.content⟩ = hashIS h1) := by
  refine ⟨?_, ?_, ?_, ?_, ?_, ?_, ?_⟩
  · simp [beqIS]
  · rw [cmpIS, strCmp_eq_eq_iff]
    exact ⟨fun h => String.ext h, fun h => by rw [h]⟩
  · exact strCmp_eq_lt_iff _ _
  · intro h
    simp only [beqIS, beq_iff_eq] at h
    simp [hashIS, h]
  · intro i j; rfl
  · intro i j; rfl
  · intro i; rfl

/-- Witness for C5: two handles with content "a" in different buffers are
equal and hash identically. -/
theorem content_only_equality_ordering_hash_witness :
    beqIS ⟨0, "a"⟩ ⟨1, "a"⟩ = true ∧ hashIS ⟨0, "a"⟩ = hashIS ⟨1, "a"⟩ :=
  ⟨by decide, (content_only_equality_ordering_hash ⟨0, "a"⟩ ⟨1, "a"⟩).2.2.2.1 (by decide)⟩

/-! ## Lock poisoning (claim C8) -/

/-- Claim C8: the constructor returns no error value under normal operation;
if the lock on the intern table is found poisoned (at the shared or at the
exclusive acquisition), the operation is fatal: the `expect` panic terminates
the calling thread immediately, without retrying and without returning a
handle. -/
theorem poisoned_lock_fatal (s : String) (σ : InternState) :
    internLocked true s σ = Except.error "Corrupted STRING_TABLE" ∧
    internLocked false s σ = Except.ok (intern s σ) := by
  constructor
  · rfl
  · cases hf : findLive σ.bufs s <;> simp [internLocked, intern, hf]

/-! ## Read-only content views (claim C10) -/

/-- Claim C10: the three read-only views — `Deref` to `str`, `AsRef<str>` and
`Borrow<str>` — all return the same string slice, the handle's content. -/
theorem content_views_agree (h : ImmutableString) :
    derefIS h = h.content ∧ asRefIS h = derefIS h ∧ borrowIS h = derefIS h ∧
    asRefIS h = h.content ∧ borrowIS h = h.content :=
  ⟨rfl, rfl, rfl, rfl, rfl⟩

/-! ## Counting held handles -/

theorem countHandles_cons (x : ImmutableString) (l : List ImmutableString) (i : Nat) :
    countHandles (x :: l) i = (if x.bufId = i then 1 else 0) + countHandles l i := by
  unfold countHandles
  rw [List.filter_cons]
  by_cases hx : x.bufId = i
  · simp only [hx, beq_self_eq_true, if_pos, List.length_cons, if_true]
    omega
  · simp [hx]

theorem countHandles_pos_of_mem {l : List ImmutableString} {h : ImmutableString} {i : Nat}
    (hm : h ∈ l) (hid : h.bufId = i) : 0 < countHandles l i := by
  unfold countHandles
  have hmem : h ∈ l.filter (fun x => x.bufId == i) :=
    List.mem_filter.mpr ⟨hm, by simp [hid]⟩
  exact List.length_pos_of_mem hmem

theorem countHandles_eq_zero_of (l : List ImmutableString) (i : Nat)
    (h : ∀ x ∈ l, x.bufId ≠ i) : countHandles l i = 0 := by
  unfold countHandles
  rw [List.length_eq_zero, List.filter_eq_nil_iff]
  intro x hx
  simp [h x hx]

theorem mem_of_mem_removeOne {l : List ImmutableString} {h x : ImmutableString}
    (hx : x ∈ removeOne l h) : x ∈ l := by
  induction l with
  | nil => rw [removeOne] at hx; cases hx
  | cons y ys ih =>
    rw [removeOne] at hx
    by_cases hyh : y = h
    · rw [if_pos hyh] at hx
      exact List.mem_cons_of_mem y hx
    · rw [if_neg hyh] at hx
      rcases List.mem_cons.mp hx with h1 | h1
      · rw [h1]; exact List.mem_cons_self y ys
      · exact List.mem_cons_of_mem y (ih h1)

theorem countHandles_removeOne {l : List ImmutableString} {h : ImmutableString}
    (hm : h ∈ l) (i : Nat) :
    countHandles (removeOne l h) i + (if h.bufId = i then 1 else 0)
      = countHandles l i := by
  induction l with
  | nil => cases hm
  | cons y ys ih =>
    rw [removeOne]
    by_cases hyh : y = h
    · rw [if_pos hyh, countHandles_cons, hyh]
      by_cases hcond : h.bufId = i <;> simp [hcond]
      omega
    · have hm' : h ∈ ys := by
        rcases List.mem_cons.mp hm with h1 | h1
        · exact absurd h1.symm hyh
        · exact h1
      rw [if_neg hyh, countHandles_cons, countHandles_cons]
      have := ih hm'
      omega

/-! ## Primitives of the decrement path (dropping a handle) -/

theorem dec_fn_id (i : Nat) (b : Buffer) :
    ((if b.id = i then (⟨b.id, b.content, b.strong - 1⟩ : Buffer) else b)).id = b.id := by
  by_cases h : b.id = i <;> simp [h]

theorem dec_fn_content (i : Nat) (b : Buffer) :
    ((if b.id = i then (⟨b.id, b.content, b.strong - 1⟩ : Buffer) else b)).content
      = b.content := by
  by_cases h : b.id = i <;> simp [h]

theorem dec_fn_strong (i : Nat) (b : Buffer) :
    ((if b.id = i then (⟨b.id, b.content, b.strong - 1⟩ : Buffer) else b)).strong
      = (if b.id = i then b.strong - 1 else b.strong) := by
  by_cases h : b.id = i <;> simp [h]

theorem mem_decStrong {σ : InternState} {i : Nat} {b' : Buffer}
    (h : b' ∈ (decStrong σ i).bufs) :
    ∃ b ∈ σ.bufs,
      b' = if b.id = i then (⟨b.id, b.content, b.strong - 1⟩ : Buffer) else b := by
  simp only [decStrong] at h
  obtain ⟨b, hb, hb'⟩ := List.mem_map.mp h
  exact ⟨b, hb, hb'.symm⟩

/-! ## Preservation of the world invariant by every handle operation -/

theorem StateWF_bumpStrong (σ : InternState) (i : Nat) (hσ : StateWF σ)
    (hlive : ∀ b ∈ σ.bufs, b.id = i → 0 < b.strong) :
    StateWF (bumpStrong σ i) := by
  obtain ⟨hbound, huniq, hdedup⟩ := hσ
  refine ⟨?_, ?_, ?_⟩
  · intro b' hb'
    obtain ⟨b, hb, rfl⟩ := mem_bumpStrong hb'
    rw [bump_fn_id]
    exact hbound b hb
  · intro a' ha' b' hb' hid
    obtain ⟨a, ha, rfl⟩ := mem_bumpStrong ha'
    obtain ⟨b, hb, rfl⟩ := mem_bumpStrong hb'
    rw [bump_fn_id, bump_fn_id] at hid
    rw [huniq a ha b hb hid]
  · intro a' ha' b' hb' hsa hsb hc
    obtain ⟨a, ha, rfl⟩ := mem_bumpStrong ha'
    obtain ⟨b, hb, rfl⟩ := mem_bumpStrong hb'
    rw [bump_fn_content, bump_fn_content] at hc
    rw [bump_fn_strong] at hsa hsb
    rw [bump_fn_id, bump_fn_id]
    have haLive : 0 < a.strong := by
      by_cases hx : a.id = i
      · exact hlive a ha hx
      · rw [if_neg hx] at hsa; exact hsa
    have hbLive : 0 < b.strong := by
      by_cases hx : b.id = i
      · exact hlive b hb hx
      · rw [if_neg hx] at hsb; exact hsb
    exact hdedup a ha b hb haLive hbLive hc

theorem intern_preserves_buffers {σ : InternState} {s : String} {b : Buffer}
    (hb : b ∈ σ.bufs) :
    ∃ b' ∈ (intern s σ).2.bufs, b'.id = b.id ∧ b'.content = b.content := by
  cases hf : findLive σ.bufs s with
  | none =>
    rw [intern_of_none hf]
    exact ⟨b, List.mem_cons_of_mem _ hb, rfl, rfl⟩
  | some i =>
    rw [intern_of_some hf]
    refine ⟨if b.id = i then (⟨b.id, b.content, b.strong + 1⟩ : Buffer) else b,
      ?_, ?_, ?_⟩
    · exact List.mem_map_of_mem _ hb
    · rw [bump_fn_id]
    · rw [bump_fn_content]

/-- The empty world (lazy initialization of the table) is well formed. -/
theorem WorldInv_empty : WorldInv World.empty := by decide

/-- Constructing a handle preserves the world invariant; the new handle has
the requested content and is held afterwards. -/
theorem WorldInv_internW (s : String) (w : World) (hw : WorldInv w) :
    WorldInv (internW s w).2 ∧ (internW s w).1.content = s ∧
    (internW s w).1 ∈ (internW s w).2.live := by
  obtain ⟨⟨hbound, huniq, hdedup⟩, hmatch, hcount⟩ := hw
  obtain ⟨hcontent, hWF', hfind⟩ := StateWF_intern s w.st ⟨hbound, huniq, hdedup⟩
  refine ⟨⟨hWF', ?_, ?_⟩, hcontent, List.mem_cons_self _ _⟩
  · intro h hmem
    rcases List.mem_cons.mp hmem with hh | hh
    · subst hh
      obtain ⟨b, hbmem, hbid, hbc, hbs⟩ := findLive_eq_some_elim hfind
      exact ⟨b, hbmem, hbid, by rw [hbc, hcontent]⟩
    · obtain ⟨bx, hbx, hbxid, hbxc⟩ := hmatch h hh
      obtain ⟨b', hb', hb'id, hb'c⟩ := intern_preserves_buffers hbx
      exact ⟨b', hb', by rw [hb'id, hbxid], by rw [hb'c, hbxc]⟩
  · intro b' hb'
    simp only [internW] at hb' ⊢
    cases hf : findLive w.st.bufs s with
    | some i =>
      rw [intern_of_some hf] at hb' ⊢
      obtain ⟨b, hb, rfl⟩ := mem_bumpStrong hb'
      rw [bump_fn_id, bump_fn_strong, countHandles_cons]
      by_cases hcase : b.id = i
      · rw [if_pos hcase,
          if_pos (show (⟨i, s⟩ : ImmutableString).bufId = b.id from hcase.symm),
          hcount b hb]
        omega
      · rw [if_neg hcase,
          if_neg (show ¬(⟨i, s⟩ : ImmutableString).bufId = b.id from
            fun hcontr => hcase hcontr.symm),
          hcount b hb]
        omega
    | none =>
      rw [intern_of_none hf] at hb' ⊢
      rcases List.mem_cons.mp hb' with hh | hh
      · subst hh
        rw [countHandles_cons]
        have hz : countHandles w.live w.st.nextId = 0 :=
          countHandles_eq_zero_of _ _ (fun x hx => by
            obtain ⟨bx, hbx, hbxid, _⟩ := hmatch x hx
            have := hbound bx hbx
            rw [← hbxid]
            omega)
        rw [if_pos rfl, hz]
      · rw [countHandles_cons,
          if_neg (show ¬(⟨w.st.nextId, s⟩ : ImmutableString).bufId = b'.id from by
            have := hbound b' hh
            simp only
            omega),
          hcount b' hh]
        omega

/-- Cloning a held handle preserves the world invariant. -/
theorem WorldInv_cloneW (w : World) (h : ImmutableString) (hw : WorldInv w)
    (hm : h ∈ w.live) : WorldInv (cloneW w h).2 := by
  obtain ⟨⟨hbound, huniq, hdedup⟩, hmatch, hcount⟩ := hw
  obtain ⟨bh, hbh, hbhid, hbhc⟩ := hmatch h hm
  have hlive : ∀ b ∈ w.st.bufs, b.id = h.bufId → 0 < b.strong := fun b hb hid => by
    rw [hcount b hb]
    exact countHandles_pos_of_mem hm hid.symm
  refine ⟨StateWF_bumpStrong w.st h.bufId ⟨hbound, huniq, hdedup⟩ hlive, ?_, ?_⟩
  · intro x hmem
    rcases List.mem_cons.mp hmem with hh | hh
    · subst hh
      refine ⟨if bh.id = x.bufId then (⟨bh.id, bh.content, bh.strong + 1⟩ : Buffer) else bh,
        List.mem_map_of_mem _ hbh, ?_, ?_⟩
      · rw [bump_fn_id]; exact hbhid
      · rw [bump_fn_content]; exact hbhc
    · obtain ⟨bx, hbx, hbxid, hbxc⟩ := hmatch x hh
      refine ⟨if bx.id = h.bufId then (⟨bx.id, bx.content, bx.strong + 1⟩ : Buffer) else bx,
        List.mem_map_of_mem _ hbx, ?_, ?_⟩
      · rw [bump_fn_id]; exact hbxid
      · rw [bump_fn_content]; exact hbxc
  · intro b' hb'
    simp only [cloneW] at hb' ⊢
    obtain ⟨b, hb, rfl⟩ := mem_bumpStrong hb'
    rw [bump_fn_id, bump_fn_strong, countHandles_cons]
    by_cases hcase : b.id = h.bufId
    · rw [if_pos hcase, if_pos hcase.symm, hcount b hb]
      omega
    · rw [if_neg hcase, if_neg (fun hcontr => hcase hcontr.symm), hcount b hb]
      omega

/-- Dropping a held handle preserves the world invariant. -/
theorem WorldInv_dropW (w : World) (h : ImmutableString) (hw : WorldInv w)
    (hm : h ∈ w.live) : WorldInv (dropW w h) := by
  obtain ⟨⟨hbound, huniq, hdedup⟩, hmatch, hcount⟩ := hw
  refine ⟨⟨?_, ?_, ?_⟩, ?_, ?_⟩
  · intro b' hb'
    obtain ⟨b, hb, rfl⟩ := mem_decStrong hb'
    rw [dec_fn_id]
    exact hbound b hb
  · intro a' ha' b' hb' hid
    obtain ⟨a, ha, rfl⟩ := mem_decStrong ha'
    obtain ⟨b, hb, rfl⟩ := mem_decStrong hb'
    rw [dec_fn_id, dec_fn_id] at hid
    rw [huniq a ha b hb hid]
  · intro a' ha' b' hb' hsa hsb hc
    obtain ⟨a, ha, rfl⟩ := mem_decStrong ha'
    obtain ⟨b, hb, rfl⟩ := mem_decStrong hb'
    rw [dec_fn_content, dec_fn_content] at hc
    rw [dec_fn_strong] at hsa hsb
    rw [dec_fn_id, dec_fn_id]
    have haLive : 0 < a.strong := by
      by_cases hx : a.id = h.bufId
      · rw [if_pos hx] at hsa; omega
      · rw [if_neg hx] at hsa; exact hsa
    have hbLive : 0 < b.strong := by
      by_cases hx : b.id = h.bufId
      · rw [if_pos hx] at hsb; omega
      · rw [if_neg hx] at hsb; exact hsb
    exact hdedup a ha b hb haLive hbLive hc
  · intro x hmem
    have hx : x ∈ w.live := mem_of_mem_removeOne hmem
    obtain ⟨bx, hbx, hbxid, hbxc⟩ := hmatch x hx
    refine ⟨if bx.id = h.bufId then (⟨bx.id, bx.content, bx.strong - 1⟩ : Buffer) else bx,
      List.mem_map_of_mem _ hbx, ?_, ?_⟩
    · rw [dec_fn_id]; exact hbxid
    · rw [dec_fn_content]; exact hbxc
  · intro b' hb'
    simp only [dropW] at hb' ⊢
    obtain ⟨b, hb, rfl⟩ := mem_decStrong hb'
    rw [dec_fn_id, dec_fn_strong]
    have hcnt := countHandles_removeOne hm b.id
    have hbs := hcount b hb
    by_cases hcase : b.id = h.bufId
    · rw [if_pos hcase]
      rw [if_pos hcase.symm] at hcnt
      omega
    · rw [if_neg hcase]
      rw [if_neg (fun hcontr => hcase hcontr.symm)] at hcnt
      omega

/-! ## The dedup invariant (claim C1) -/

theorem use_count_eq_strong (σ : InternState) (h : ImmutableString) (b : Buffer)
    (huniq : ∀ a ∈ σ.bufs, ∀ b' ∈ σ.bufs, a.id = b'.id → a = b')
    (hb : b ∈ σ.bufs) (hid : b.id = h.bufId) :
    use_count σ h = b.strong := by
  unfold use_count
  cases hfind : σ.bufs.find? (fun x => x.id == h.bufId) with
  | none =>
    rw [List.find?_eq_none] at hfind
    exact absurd (by simp [hid]) (hfind b hb)
  | some b' =>
    have hmem := List.mem_of_find?_eq_some hfind
    have hp := List.find?_some hfind
    rw [beq_iff_eq] at hp
    rw [huniq b' hmem b hb (by rw [hp, hid])]
    rfl

/-- Claim C1: in any well-formed world, any two held handles with equal
content (however constructed) compare equal, reference the same buffer
instance, and both report the identical use count, equal to the total number
of held handles sharing that content. -/
theorem dedup_invariant (w : World) (h1 h2 : ImmutableString) (hw : WorldInv w)
    (h1m : h1 ∈ w.live) (h2m : h2 ∈ w.live) (hc : h1.content = h2.content) :
    beqIS h1 h2 = true ∧
    h1.bufId = h2.bufId ∧
    use_count w.st h1 = use_count w.st h2 ∧
    use_count w.st h1 = countContent w.live h1.content ∧
    use_count w.st h2 = countContent w.live h2.content := by
  obtain ⟨⟨hbound, huniq, hdedup⟩, hmatch, hcount⟩ := hw
  obtain ⟨b1, hb1, hb1id, hb1c⟩ := hmatch h1 h1m
  obtain ⟨b2, hb2, hb2id, hb2c⟩ := hmatch h2 h2m
  have hb1live : 0 < b1.strong := by
    rw [hcount b1 hb1]
    exact countHandles_pos_of_mem h1m hb1id.symm
  have hb2live : 0 < b2.strong := by
    rw [hcount b2 hb2]
    exact countHandles_pos_of_mem h2m hb2id.symm
  have hbid : b1.id = b2.id :=
    hdedup b1 hb1 b2 hb2 hb1live hb2live (by rw [hb1c, hb2c, hc])
  have hbuf : h1.bufId = h2.bufId := by rw [← hb1id, hbid, hb2id]
  have huse1 : use_count w.st h1 = b1.strong :=
    use_count_eq_strong w.st h1 b1 huniq hb1 hb1id
  have huse2 : use_count w.st h2 = b2.strong :=
    use_count_eq_strong w.st h2 b2 huniq hb2 hb2id
  have hfiltereq : countContent w.live h1.content = countHandles w.live b1.id := by
    unfold countContent countHandles
    rw [List.filter_congr]
    intro x hx
    by_cases hxc : x.content = h1.content
    · obtain ⟨bx, hbx, hbxid, hbxc⟩ := hmatch x hx
      have hbxlive : 0 < bx.strong := by
        rw [hcount bx hbx]
        exact countHandles_pos_of_mem hx hbxid.symm
      have hxi : bx.id = b1.id :=
        hdedup bx hbx b1 hb1 hbxlive hb1live (by rw [hbxc, hxc, hb1c])
      have hxb : x.bufId = b1.id := by rw [← hbxid]; exact hxi
      simp [hxc, hxb]
    · have hxb : x.bufId ≠ b1.id := by
        intro hcontr
        obtain ⟨bx, hbx, hbxid, hbxc⟩ := hmatch x hx
        have hxbx : bx = b1 := huniq bx hbx b1 hb1 (by rw [hbxid, hcontr])
        exact hxc (by rw [← hbxc, hxbx, hb1c])
      simp [hxc, hxb]
  refine ⟨by simp [beqIS, hc], hbuf, ?_, ?_, ?_⟩
  · rw [huse1, huse2, hcount b1 hb1, hcount b2 hb2, hbid]
  · rw [huse1, hcount b1 hb1, hfiltereq]
  · rw [huse2, hcount b2 hb2, ← hbid, ← hc]
    exact hfiltereq.symm

/-- Witness for C1: a world holding two handles for "a" sharing buffer 0 and
one handle for "b" in buffer 1. -/
theorem dedup_invariant_witness :
    WorldInv ⟨⟨2, [⟨1, "b", 1⟩, ⟨0, "a", 2⟩]⟩, [⟨0, "a"⟩, ⟨1, "b"⟩, ⟨0, "a"⟩]⟩ ∧
    (beqIS ⟨0, "a"⟩ ⟨0, "a"⟩ = true ∧
     (⟨0, "a"⟩ : ImmutableString).bufId = (⟨0, "a"⟩ : ImmutableString).bufId ∧
     use_count (⟨2, [⟨1, "b", 1⟩, ⟨0, "a", 2⟩]⟩ : InternState) ⟨0, "a"⟩
       = use_count (⟨2, [⟨1, "b", 1⟩, ⟨0, "a", 2⟩]⟩ : InternState) ⟨0, "a"⟩ ∧
     use_count (⟨2, [⟨1, "b", 1⟩, ⟨0, "a", 2⟩]⟩ : InternState) ⟨0, "a"⟩
       = countContent [⟨0, "a"⟩, ⟨1, "b"⟩, ⟨0, "a"⟩] (⟨0, "a"⟩ : ImmutableString).content ∧
     use_count (⟨2, [⟨1, "b", 1⟩, ⟨0, "a", 2⟩]⟩ : InternState) ⟨0, "a"⟩
       = countContent [⟨0, "a"⟩, ⟨1, "b"⟩, ⟨0, "a"⟩] (⟨0, "a"⟩ : ImmutableString).content) :=
  ⟨by decide,
   dedup_invariant ⟨⟨2, [⟨1, "b", 1⟩, ⟨0, "a", 2⟩]⟩, [⟨0, "a"⟩, ⟨1, "b"⟩, ⟨0, "a"⟩]⟩
     ⟨0, "a"⟩ ⟨0, "a"⟩ (by decide) (by decide) (by decide) rfl⟩

/-! ## Reclamation after the last drop (claim C7) -/

/-- Claim C7: once every handle for a given content has been dropped, the
table's weak entry for that content is treated as absent by lookup, and a
subsequent intern of the same content allocates a fresh buffer (an identity
different from every recorded buffer) whose use count is 1. -/
theorem reclamation_fresh_buffer (w : World) (s : String) (hw : WorldInv w)
    (hdead : ∀ h ∈ w.live, h.content ≠ s) :
    findLive w.st.bufs s = none ∧
    (intern s w.st).1 = ⟨w.st.nextId, s⟩ ∧
    (∀ b ∈ w.st.bufs, b.id ≠ (intern s w.st).1.bufId) ∧
    use_count (intern s w.st).2 (intern s w.st).1 = 1 := by
  obtain ⟨⟨hbound, huniq, hdedup⟩, hmatch, hcount⟩ := hw
  have hnone : findLive w.st.bufs s = none := by
    rw [findLive_eq_none_iff]
    intro b hb hc
    rw [hcount b hb]
    unfold countHandles
    rw [List.length_eq_zero, List.filter_eq_nil_iff]
    intro x hx hxb
    rw [beq_iff_eq] at hxb
    obtain ⟨bx, hbx, hbxid, hbxc⟩ := hmatch x hx
    have hxbx : bx = b := huniq bx hbx b hb (by rw [hbxid, hxb])
    apply hdead x hx
    rw [← hbxc, hxbx]
    exact hc
  refine ⟨hnone, ?_, ?_, ?_⟩
  · rw [intern_of_none hnone]
  · intro b hb hcontr
    have hlt := hbound b hb
    rw [intern_of_none hnone] at hcontr
    simp only at hcontr
    omega
  · rw [intern_of_none hnone]
    exact use_count_cons_eq (w.st.nextId + 1) ⟨w.st.nextId, s, 1⟩ w.st.bufs
      ⟨w.st.nextId, s⟩ rfl

/-- Witness for C7: a world where "a" was interned once and the only handle
was dropped (buffer 0 has strong count 0); interning "a" again gives a fresh
buffer with use count 1. -/
theorem reclamation_fresh_buffer_witness :
    WorldInv ⟨⟨1, [⟨0, "a", 0⟩]⟩, []⟩ ∧
    (findLive (⟨⟨1, [⟨0, "a", 0⟩]⟩, []⟩ : World).st.bufs "a" = none ∧
     (intern "a" (⟨⟨1, [⟨0, "a", 0⟩]⟩, []⟩ : World).st).1 = ⟨1, "a"⟩ ∧
     (∀ b ∈ (⟨⟨1, [⟨0, "a", 0⟩]⟩, []⟩ : World).st.bufs,
        b.id ≠ (intern "a" (⟨⟨1, [⟨0, "a", 0⟩]⟩, []⟩ : World).st).1.bufId) ∧
     use_count (intern "a" (⟨⟨1, [⟨0, "a", 0⟩]⟩, []⟩ : World).st).2
       (intern "a" (⟨⟨1, [⟨0, "a", 0⟩]⟩, []⟩ : World).st).1 = 1) :=
  ⟨by decide, reclamation_fresh_buffer ⟨⟨1, [⟨0, "a", 0⟩]⟩, []⟩ "a" (by decide)
    (by decide)⟩

/-! ## Display and Debug rendering (claim C9) -/

theorem escapeDebugChar_length_pos (c : Char) : 0 < (escapeDebugChar c).length := by
  unfold escapeDebugChar
  split_ifs
  · decide
  · decide
  · decide
  · decide
  · decide
  · have h1 : (String.singleton c).length = 1 := rfl
    omega
  · rw [String.length_append, String.length_append]
    have h1 : ("\\u\x7b" : String).length = 3 := rfl
    omega

theorem escapeList_length_ge (cs : List Char) : cs.length ≤ (escapeList cs).length := by
  induction cs with
  | nil => simp [escapeList]
  | cons c cs ih =>
    rw [escapeList, String.length_append, List.length_cons]
    have := escapeDebugChar_length_pos c
    omega

theorem escapeList_of_plain (cs : List Char)
    (h : ∀ c ∈ cs, escapeDebugChar c = String.singleton c) :
    escapeList cs = String.mk cs := by
  induction cs with
  | nil => rfl
  | cons c cs ih =>
    rw [escapeList, h c (List.mem_cons_self c cs),
      ih (fun x hx => h x (List.mem_cons_of_mem c hx))]
    rfl

/-- Counterexample to C9 as stated: for the handle with content "a", the
`Debug` rendering is the three-character string quote-a-quote, not the
content itself; `Debug` delegates to the quoting `str` implementation. -/
theorem debug_not_verbatim : debugIS ⟨0, "a"⟩ = "\"a\"" ∧ debugIS ⟨0, "a"⟩ ≠ "a" := by
  constructor <;> decide

/-- C9 as amended: the `Display` rendering produces exactly the original
content, with no extra characters; the `Debug` rendering is never the bare
content — it wraps the (escaped) content in double quotes, and when no
character of the content needs escaping it is exactly the content surrounded
by double quotes. -/
theorem display_verbatim_debug_quoted (h : ImmutableString) :
    displayIS h = h.content ∧
    debugIS h ≠ h.content ∧
    ((∀ c ∈ h.content.data, escapeDebugChar c = String.singleton c) →
      debugIS h = "\"" ++ h.content ++ "\"") := by
  refine ⟨rfl, ?_, ?_⟩
  · intro hEq
    have hlen : (debugIS h).length = h.content.length := by rw [hEq]
    have hq : ("\"" : String).length = 1 := rfl
    have hsplit : (debugIS h).length
        = ("\"" : String).length + (escapeList h.content.data).length
          + ("\"" : String).length := by
      rw [debugIS, debugRenderStr, String.length_append, String.length_append]
    have hge := escapeList_length_ge h.content.data
    have hc : h.content.length = h.content.data.length := rfl
    omega
  · intro hplain
    rw [debugIS, debugRenderStr, escapeList_of_plain _ hplain]

/-! ## The concurrent race on previously-unseen content (claim C3) -/

theorem countDone_cons (pc : ThreadPC) (l : List ThreadPC) :
    countDone (pc :: l) = doneBit pc + countDone l := by
  simp [countDone]

theorem countDone_set {l : List ThreadPC} {t : Nat} {pc : ThreadPC} (pc' : ThreadPC)
    (hget : l[t]? = some pc) :
    countDone (l.set t pc') + doneBit pc = countDone l + doneBit pc' := by
  induction l generalizing t with
  | nil => simp at hget
  | cons x xs ih =>
    cases t with
    | zero =>
      rw [List.getElem?_cons_zero, Option.some_inj] at hget
      subst hget
      rw [List.set_cons_zero, countDone_cons, countDone_cons]
      omega
    | succ m =>
      rw [List.getElem?_cons_succ] at hget
      rw [List.set_cons_succ, countDone_cons, countDone_cons]
      have := ih hget
      omega

theorem countDone_replicate_start (n : Nat) :
    countDone (List.replicate n ThreadPC.start) = 0 := by
  induction n with
  | zero => rfl
  | succ k ih =>
    rw [List.replicate_succ, countDone_cons, ih]
    rfl

theorem countDone_eq_length_of_all_done {l : List ThreadPC}
    (h : ∀ pc ∈ l, ∃ x, pc = ThreadPC.done x) : countDone l = l.length := by
  induction l with
  | nil => rfl
  | cons pc l ih =>
    obtain ⟨x, hx⟩ := h pc (List.mem_cons_self _ _)
    subst hx
    rw [countDone_cons, ih (fun q hq => h q (List.mem_cons_of_mem _ hq)), List.length_cons]
    simp only [doneBit]
    omega

theorem stepConfig_threads_length (s : String) (c : RaceConfig) (t : Nat) :
    (stepConfig s c t).threads.length = c.threads.length := by
  unfold stepConfig
  cases hget : c.threads[t]? with
  | none => rfl
  | some pc => simp [List.length_set]

theorem runRace_threads_length (s : String) (sched : List Nat) (c : RaceConfig) :
    (runRace s sched c).threads.length = c.threads.length := by
  induction sched generalizing c with
  | nil => rfl
  | cons t ts ih =>
    rw [runRace, ih, stepConfig_threads_length]

theorem RaceInv_init (σ0 : InternState) (s : String) (n : Nat) :
    RaceInv σ0 s ⟨σ0, List.replicate n ThreadPC.start⟩ := by
  refine ⟨?_, Or.inl ⟨rfl, countDone_replicate_start n⟩⟩
  intro q hq x hx
  have hqs := List.eq_of_mem_replicate hq
  subst hqs
  exact ThreadPC.noConfusion hx

theorem RaceInv_step (σ0 : InternState) (s : String)
    (hWF : ∀ b ∈ σ0.bufs, b.id < σ0.nextId)
    (hmiss : findLive σ0.bufs s = none)
    (c : RaceConfig) (t : Nat) (hc : RaceInv σ0 s c) :
    RaceInv σ0 s (stepConfig s c t) := by
  obtain ⟨hdone, hstate⟩ := hc
  cases hget : c.threads[t]? with
  | none =>
    have hstep : stepConfig s c t = c := by
      unfold stepConfig
      rw [hget]
    rw [hstep]
    exact ⟨hdone, hstate⟩
  | some pc =>
    have hpcmem : pc ∈ c.threads := by
      obtain ⟨hlt, heq⟩ := List.getElem?_eq_some.mp hget
      exact heq ▸ List.getElem_mem hlt
    cases pc with
    | done h =>
      have hstep : stepConfig s c t = ⟨c.st, c.threads.set t (ThreadPC.done h)⟩ := by
        unfold stepConfig
        rw [hget]
        rfl
      rw [hstep]
      unfold RaceInv
      dsimp only
      have hset := countDone_set (ThreadPC.done h) hget
      simp only [doneBit] at hset
      refine ⟨?_, ?_⟩
      · intro q hq x hx
        rcases List.mem_or_eq_of_mem_set hq with hq' | hq'
        · exact hdone q hq' x hx
        · subst hq'
          injection hx with hx'
          subst hx'
          exact hdone _ hpcmem h rfl
      · rcases hstate with ⟨hst, hcnt⟩ | ⟨hst, hcnt⟩
        · exact Or.inl ⟨hst, by omega⟩
        · refine Or.inr ⟨?_, by omega⟩
          rw [show countDone (c.threads.set t (ThreadPC.done h)) = countDone c.threads from
            by omega]
          exact hst
    | start =>
      rcases hstate with ⟨hst, hcnt⟩ | ⟨hst, hcnt⟩
      · have hstT : stepThread s c.st ThreadPC.start = (ThreadPC.waiting, c.st) := by
          unfold stepThread
          rw [hst, hmiss]
        have hstep : stepConfig s c t = ⟨c.st, c.threads.set t ThreadPC.waiting⟩ := by
          unfold stepConfig
          rw [hget]
          show (⟨(stepThread s c.st ThreadPC.start).2,
                c.threads.set t (stepThread s c.st ThreadPC.start).1⟩ : RaceConfig) = _
          rw [hstT]
        rw [hstep]
        unfold RaceInv
        dsimp only
        have hset := countDone_set ThreadPC.waiting hget
        simp only [doneBit] at hset
        refine ⟨?_, Or.inl ⟨hst, by omega⟩⟩
        intro q hq x hx
        rcases List.mem_or_eq_of_mem_set hq with hq' | hq'
        · exact hdone q hq' x hx
        · subst hq'
          exact ThreadPC.noConfusion hx
      · have hfB : findLive c.st.bufs s = some σ0.nextId := by
          rw [hst]
          exact findLive_cons_live σ0.nextId s (countDone c.threads) σ0.bufs hcnt
        have hstT : stepThread s c.st ThreadPC.start
            = (ThreadPC.done ⟨σ0.nextId, s⟩, bumpStrong c.st σ0.nextId) := by
          unfold stepThread
          rw [hfB]
        have hbump : bumpStrong c.st σ0.nextId
            = ⟨σ0.nextId + 1, ⟨σ0.nextId, s, countDone c.threads + 1⟩ :: σ0.bufs⟩ := by
          rw [hst]
          exact bumpStrong_cons (σ0.nextId + 1) σ0.nextId s (countDone c.threads) σ0.bufs
            (fun b hb => by have := hWF b hb; omega)
        have hstep : stepConfig s c t
            = ⟨⟨σ0.nextId + 1, ⟨σ0.nextId, s, countDone c.threads + 1⟩ :: σ0.bufs⟩,
               c.threads.set t (ThreadPC.done ⟨σ0.nextId, s⟩)⟩ := by
          unfold stepConfig
          rw [hget]
          show (⟨(stepThread s c.st ThreadPC.start).2,
                c.threads.set t (stepThread s c.st ThreadPC.start).1⟩ : RaceConfig) = _
          rw [hstT, hbump]
        rw [hstep]
        unfold RaceInv
        dsimp only
        have hset := countDone_set (ThreadPC.done ⟨σ0.nextId, s⟩) hget
        simp only [doneBit] at hset
        refine ⟨?_, Or.inr ⟨?_, by omega⟩⟩
        · intro q hq x hx
          rcases List.mem_or_eq_of_mem_set hq with hq' | hq'
          · exact hdone q hq' x hx
          · subst hq'
            injection hx with hx'
            exact hx'.symm
        · rw [show countDone (c.threads.set t (ThreadPC.done ⟨σ0.nextId, s⟩))
              = countDone c.threads + 1 from by omega]
    | waiting =>
      rcases hstate with ⟨hst, hcnt⟩ | ⟨hst, hcnt⟩
      · have hcore : internCore s c.st
            = (⟨σ0.nextId, s⟩, ⟨σ0.nextId + 1, ⟨σ0.nextId, s, 1⟩ :: σ0.bufs⟩) := by
          rw [hst]
          unfold internCore
          rw [hmiss]
          rfl
        have hstT : stepThread s c.st ThreadPC.waiting
            = (ThreadPC.done ⟨σ0.nextId, s⟩,
               ⟨σ0.nextId + 1, ⟨σ0.nextId, s, 1⟩ :: σ0.bufs⟩) := by
          unfold stepThread
          rw [hcore]
        have hstep : stepConfig s c t
            = ⟨⟨σ0.nextId + 1, ⟨σ0.nextId, s, 1⟩ :: σ0.bufs⟩,
               c.threads.set t (ThreadPC.done ⟨σ0.nextId, s⟩)⟩ := by
          unfold stepConfig
          rw [hget]
          show (⟨(stepThread s c.st ThreadPC.waiting).2,
                c.threads.set t (stepThread s c.st ThreadPC.waiting).1⟩ : RaceConfig) = _
          rw [hstT]
        rw [hstep]
        unfold RaceInv
        dsimp only
        have hset := countDone_set (ThreadPC.done ⟨σ0.nextId, s⟩) hget
        simp only [doneBit] at hset
        refine ⟨?_, Or.inr ⟨?_, by omega⟩⟩
        · intro q hq x hx
          rcases List.mem_or_eq_of_mem_set hq with hq' | hq'
          · exact hdone q hq' x hx
          · subst hq'
            injection hx with hx'
            exact hx'.symm
        · rw [show countDone (c.threads.set t (ThreadPC.done ⟨σ0.nextId, s⟩)) = 1 from
            by omega]
      · have hfB : findLive c.st.bufs s = some σ0.nextId := by
          rw [hst]
          exact findLive_cons_live σ0.nextId s (countDone c.threads) σ0.bufs hcnt
        have hcore : internCore s c.st = (⟨σ0.nextId, s⟩, bumpStrong c.st σ0.nextId) := by
          unfold internCore
          rw [hfB]
        have hstT : stepThread s c.st ThreadPC.waiting
            = (ThreadPC.done ⟨σ0.nextId, s⟩, bumpStrong c.st σ0.nextId) := by
          unfold stepThread
          rw [hcore]
        have hbump : bumpStrong c.st σ0.nextId
            = ⟨σ0.nextId + 1, ⟨σ0.nextId, s, countDone c.threads + 1⟩ :: σ0.bufs⟩ := by
          rw [hst]
          exact bumpStrong_cons (σ0.nextId + 1) σ0.nextId s (countDone c.threads) σ0.bufs
            (fun b hb => by have := hWF b hb; omega)
        have hstep : stepConfig s c t
            = ⟨⟨σ0.nextId + 1, ⟨σ0.nextId, s, countDone c.threads + 1⟩ :: σ0.bufs⟩,
               c.threads.set t (ThreadPC.done ⟨σ0.nextId, s⟩)⟩ := by
          unfold stepConfig
          rw [hget]
          show (⟨(stepThread s c.st ThreadPC.waiting).2,
                c.threads.set t (stepThread s c.st ThreadPC.waiting).1⟩ : RaceConfig) = _
          rw [hstT, hbump]
        rw [hstep]
        unfold RaceInv
        dsimp only
        have hset := countDone_set (ThreadPC.done ⟨σ0.nextId, s⟩) hget
        simp only [doneBit] at hset
        refine ⟨?_, Or.inr ⟨?_, by omega⟩⟩
        · intro q hq x hx
          rcases List.mem_or_eq_of_mem_set hq with hq' | hq'
          · exact hdone q hq' x hx
          · subst hq'
            injection hx with hx'
            exact hx'.symm
        · rw [show countDone (c.threads.set t (ThreadPC.done ⟨σ0.nextId, s⟩))
              = countDone c.threads + 1 from by omega]

theorem RaceInv_run (σ0 : InternState) (s : String)
    (hWF : ∀ b ∈ σ0.bufs, b.id < σ0.nextId)
    (hmiss : findLive σ0.bufs s = none)
    (sched : List Nat) (c : RaceConfig) (hc : RaceInv σ0 s c) :
    RaceInv σ0 s (runRace s sched c) := by
  induction sched generalizing c with
  | nil => exact hc
  | cons t ts ih =>
    rw [runRace]
    exact ih _ (RaceInv_step σ0 s hWF hmiss c t hc)

/-- Claim C3: when `n` threads concurrently intern the same previously-unseen
content `s` (under any interleaving of the atomic read-locked lookups and
write-locked re-check-then-insert critical sections), once all threads have
finished every thread holds a handle to the one same buffer, exactly one
allocation has happened (the allocation counter advanced by exactly one), and
the final reference count of that buffer equals the number of threads. -/
theorem concurrent_race_single_buffer (σ0 : InternState) (s : String) (n : Nat)
    (sched : List Nat)
    (hWF : ∀ b ∈ σ0.bufs, b.id < σ0.nextId)
    (hmiss : findLive σ0.bufs s = none)
    (hn : 0 < n)
    (hdone : ∀ pc ∈ (runRace s sched ⟨σ0, List.replicate n ThreadPC.start⟩).threads,
      ∃ x, pc = ThreadPC.done x) :
    (∀ pc ∈ (runRace s sched ⟨σ0, List.replicate n ThreadPC.start⟩).threads,
       pc = ThreadPC.done ⟨σ0.nextId, s⟩) ∧
    use_count (runRace s sched ⟨σ0, List.replicate n ThreadPC.start⟩).st
      ⟨σ0.nextId, s⟩ = n ∧
    (runRace s sched ⟨σ0, List.replicate n ThreadPC.start⟩).st.nextId
      = σ0.nextId + 1 := by
  obtain ⟨hdones, hstate⟩ := RaceInv_run σ0 s hWF hmiss sched _ (RaceInv_init σ0 s n)
  have hlen : (runRace s sched ⟨σ0, List.replicate n ThreadPC.start⟩).threads.length
      = n := by
    rw [runRace_threads_length]
    exact List.length_replicate n _
  have hcd : countDone (runRace s sched ⟨σ0, List.replicate n ThreadPC.start⟩).threads
      = n := by
    rw [countDone_eq_length_of_all_done hdone, hlen]
  have hall : ∀ pc ∈ (runRace s sched ⟨σ0, List.replicate n ThreadPC.start⟩).threads,
      pc = ThreadPC.done ⟨σ0.nextId, s⟩ := by
    intro pc hpc
    obtain ⟨x, hx⟩ := hdone pc hpc
    rw [hx, hdones pc hpc x hx]
  rcases hstate with ⟨hst, hcnt⟩ | ⟨hst, hcnt⟩
  · rw [hcd] at hcnt
    exact absurd hcnt (by omega)
  · refine ⟨hall, ?_, ?_⟩
    · rw [hst, hcd,
        use_count_cons_eq (σ0.nextId + 1) ⟨σ0.nextId, s, n⟩ σ0.bufs ⟨σ0.nextId, s⟩ rfl]
    · rw [hst]

/-- Witness for C3: three threads interning "a" from the empty table under
the interleaving 0, 1, 0, 1, 2, 2 — threads 0 and 1 both miss on the read
path, thread 0 wins the allocation in its write critical section, thread 1
converges via the re-check, thread 2 hits on its read path. -/
theorem concurrent_race_single_buffer_witness :
    (0 < 3) ∧
    ((∀ pc ∈ (runRace "a" [0, 1, 0, 1, 2, 2]
         ⟨⟨0, []⟩, List.replicate 3 ThreadPC.start⟩).threads,
        pc = ThreadPC.done ⟨0, "a"⟩) ∧
     use_count (runRace "a" [0, 1, 0, 1, 2, 2]
         ⟨⟨0, []⟩, List.replicate 3 ThreadPC.start⟩).st ⟨0, "a"⟩ = 3 ∧
     (runRace "a" [0, 1, 0, 1, 2, 2]
         ⟨⟨0, []⟩, List.replicate 3 ThreadPC.start⟩).st.nextId = 0 + 1) :=
  ⟨by decide,
   concurrent_race_single_buffer ⟨0, []⟩ "a" 3 [0, 1, 0, 1, 2, 2]
     (by decide) (by decide) (by decide)
     (by
       intro pc hpc
       have hthreads : (runRace "a" [0, 1, 0, 1, 2, 2]
           ⟨⟨0, []⟩, List.replicate 3 ThreadPC.start⟩).threads
           = [ThreadPC.done ⟨0, "a"⟩, ThreadPC.done ⟨0, "a"⟩,
              ThreadPC.done ⟨0, "a"⟩] := by decide
       rw [hthreads] at hpc
       rcases List.mem_cons.mp hpc with h1 | h1
       · exact ⟨⟨0, "a"⟩, h1⟩
       rcases List.mem_cons.mp h1 with h2 | h2
       · exact ⟨⟨0, "a"⟩, h2⟩
       rcases List.mem_cons.mp h2 with h3 | h3
       · exact ⟨⟨0, "a"⟩, h3⟩
       cases h3)⟩

/-- Witness for the amended C9: a handle with content "ab" needs no
escaping, so `Display` gives "ab" and `Debug` gives it surrounded by double
quotes. -/
theorem display_verbatim_debug_quoted_witness :
    displayIS ⟨0, "ab"⟩ = "ab" ∧ debugIS ⟨0, "ab"⟩ = "\"" ++ "ab" ++ "\"" :=
  ⟨(display_verbatim_debug_quoted ⟨0, "ab"⟩).1,
   (display_verbatim_debug_quoted ⟨0, "ab"⟩).2.2 (by decide)⟩

end ImmStr
